import Mathlib

/-!
Verification of the EnKF twin experiment `src/05_Lorenz63_EnKF/L63_EnKF.py`.

The Python source is shallowly embedded over the exact rationals `ℚ`.
Randomness is made explicit: every call to the seeded `np.random` source is
modelled as reading the next entry of a draw stream, threaded through the
program by an explicit cursor.  All covariance matrices appearing in the
script are scalar multiples of the identity, so every Gaussian vector draw
`N(0, s^2 I)` is modelled as `s • (raw stream vector)`.

Fallible numpy operations are modelled with `Option`:
`np.linalg.inv` raises `LinAlgError` exactly on a singular matrix, and the
Python integer division `1/(N-1)` raises `ZeroDivisionError` for `N = 1`,
so `EnKF` returns `none` in those cases.
-/

namespace L63

open Matrix

abbrev Vec (n : ℕ) := Fin n → ℚ
abbrev Mat (n m : ℕ) := Matrix (Fin n) (Fin m) ℚ

/-- `np.mean(M, 1)`: the mean of the columns of `M` (the ensemble mean). -/
def colMean {n N : ℕ} (M : Mat n N) : Vec n :=
  fun r => (∑ j, M r j) / (N : ℚ)

/-- `(1/(N-1)) * (M - mean) @ (M - mean).T`: the sample covariance of the
columns of `M` about their mean with divisor `N-1`, exactly as written at
lines 42-43 and 133-134 of the source. -/
def sampleCov {n N : ℕ} (M : Mat n N) : Mat n n :=
  (1 / ((N : ℚ) - 1)) •
    ((M - Matrix.of fun r _ => colMean M r) *
      (M - Matrix.of fun r _ => colMean M r)ᵀ)

/-- `np.linalg.inv` on a square rational matrix (the value it returns on a
nonsingular input; on a singular input the caller `EnKF` fails instead). -/
def npInv {m : ℕ} (A : Mat m m) : Mat m m := A.det⁻¹ • A.adjugate

theorem npInv_eq_inv {m : ℕ} (A : Mat m m) : npInv A = A⁻¹ := by
  rw [npInv, Matrix.inv_def, Ring.inverse_eq_inv]

/-- The store of the member loop of `EnKF` (lines 32-38): the arrays `wi`
and `uai` being written column by column, and the read-only input `ubi`. -/
structure LoopSt (n N m : ℕ) where
  wi : Mat m N
  uai : Mat n N
  ubi : Mat n N

/-- One iteration of the member loop of `EnKF` (lines 34-38): write the
virtual observation into column `i` of `wi`, then write the corrected
member into column `i` of `uai`. -/
def enkfLoopStep {n N m : ℕ} (K : Mat n m) (w : Vec m)
    (ObsOp : Vec n → Vec m) (noise : Fin N → Vec m)
    (s : LoopSt n N m) (i : Fin N) : LoopSt n N m :=
  let wcol : Vec m := fun t => w t + noise i t
  { wi := s.wi.updateColumn i wcol
    uai := s.uai.updateColumn i (fun r =>
      s.ubi r i + K.mulVec (fun t => wcol t - ObsOp (fun q => s.ubi q i) t) r)
    ubi := s.ubi }

/-- The analysis step of the stochastic EnKF (lines 15-44 of the source).
`noise i` is the member-`i` draw `np.random.multivariate_normal(0, R)`.
Returns `none` when `np.linalg.inv` raises on a singular `Dh@B@Dh.T + R`,
or when `N = 1` makes `1/(N-1)` raise `ZeroDivisionError`. -/
def EnKF {n N m : ℕ} (ubi : Mat n N) (w : Vec m)
    (ObsOp : Vec n → Vec m) (JObsOp : Vec n → Mat m n)
    (R : Mat m m) (B : Mat n n) (noise : Fin N → Vec m) :
    Option (Mat n N × Mat n n) :=
  let ub := colMean ubi
  let Dh := JObsOp ub
  let D := Dh * B * Dhᵀ + R
  if D.det = 0 then none
  else
    let K := B * Dhᵀ * npInv D
    let final := (List.finRange N).foldl (enkfLoopStep K w ObsOp noise)
      ⟨0, 0, ubi⟩
    if N = 1 then none
    else some (final.uai, sampleCov final.uai)

/-- The Kalman gain `K = B·Dhᵗ·(Dh·B·Dhᵗ + R)⁻¹` (computable form). -/
def kalmanGain {n m : ℕ} (Dh : Mat m n) (B : Mat n n) (R : Mat m m) :
    Mat n m :=
  B * Dhᵀ * npInv (Dh * B * Dhᵀ + R)

/-- `kalmanGain` is the spec formula `B·Dhᵗ·(Dh·B·Dhᵗ + R)⁻¹` with the
genuine matrix inverse. -/
theorem kalmanGain_eq_inv {n m : ℕ} (Dh : Mat m n) (B : Mat n n)
    (R : Mat m m) :
    kalmanGain Dh B R = B * Dhᵀ * (Dh * B * Dhᵀ + R)⁻¹ := by
  rw [kalmanGain, npInv_eq_inv]

/-- The closed form of the analysis ensemble produced by the member loop:
member `i` is `ubi_i + K (w + noise_i − ObsOp ubi_i)`. -/
def analysisEnsemble {n N m : ℕ} (ubi : Mat n N) (w : Vec m)
    (ObsOp : Vec n → Vec m) (K : Mat n m) (noise : Fin N → Vec m) :
    Mat n N :=
  Matrix.of fun r i =>
    ubi r i + K.mulVec (fun t => w t + noise i t - ObsOp (fun q => ubi q i) t) r

theorem enkfLoop_ubi {n N m : ℕ} (K : Mat n m) (w : Vec m)
    (ObsOp : Vec n → Vec m) (noise : Fin N → Vec m)
    (l : List (Fin N)) (s : LoopSt n N m) :
    (l.foldl (enkfLoopStep K w ObsOp noise) s).ubi = s.ubi := by
  induction l generalizing s with
  | nil => rfl
  | cons a l ih => simpa [enkfLoopStep] using ih _

theorem enkfLoop_uai {n N m : ℕ} (K : Mat n m) (w : Vec m)
    (ObsOp : Vec n → Vec m) (noise : Fin N → Vec m)
    (l : List (Fin N)) (s : LoopSt n N m) (r : Fin n) (i : Fin N) :
    (l.foldl (enkfLoopStep K w ObsOp noise) s).uai r i =
      if i ∈ l then analysisEnsemble s.ubi w ObsOp K noise r i
      else s.uai r i := by
  induction l generalizing s with
  | nil => simp
  | cons a l ih =>
      rw [List.foldl_cons, ih]
      by_cases hl : i ∈ l
      · simp [hl, enkfLoopStep]
      · by_cases hia : i = a
        · subst hia
          simp [hl, enkfLoopStep, Matrix.updateColumn_apply, analysisEnsemble]
        · simp [hl, hia, enkfLoopStep, Matrix.updateColumn_apply]

/-- On nonsingular `D` and `N ≠ 1`, `EnKF` succeeds and returns exactly the
closed-form analysis ensemble with the spec's Kalman gain, together with its
sample covariance. -/
theorem EnKF_eq_some {n N m : ℕ} (ubi : Mat n N) (w : Vec m)
    (ObsOp : Vec n → Vec m) (JObsOp : Vec n → Mat m n)
    (R : Mat m m) (B : Mat n n) (noise : Fin N → Vec m)
    (hdet : (JObsOp (colMean ubi) * B * (JObsOp (colMean ubi))ᵀ + R).det ≠ 0)
    (hN : N ≠ 1) :
    EnKF ubi w ObsOp JObsOp R B noise =
      some (analysisEnsemble ubi w ObsOp
              (kalmanGain (JObsOp (colMean ubi)) B R) noise,
            sampleCov (analysisEnsemble ubi w ObsOp
              (kalmanGain (JObsOp (colMean ubi)) B R) noise)) := by
  have huai : ∀ (K : Mat n m),
      ((List.finRange N).foldl (enkfLoopStep K w ObsOp noise)
        ⟨0, 0, ubi⟩ : LoopSt n N m).uai =
        analysisEnsemble ubi w ObsOp K noise := by
    intro K
    ext r i
    rw [enkfLoop_uai]
    simp [List.mem_finRange]
  unfold EnKF
  rw [if_neg hdet, if_neg hN, huai, kalmanGain]

/-- The sample covariance as the spec words it: entry `(r,s)` is the sum over
members of the products of the centred entries, divided by `N-1`. -/
def specSampleCov {n N : ℕ} (M : Mat n N) : Mat n n :=
  Matrix.of fun r s =>
    (∑ j, (M r j - colMean M r) * (M s j - colMean M s)) / ((N : ℚ) - 1)

theorem sampleCov_eq_spec {n N : ℕ} (M : Mat n N) :
    sampleCov M = specSampleCov M := by
  ext r s
  simp only [sampleCov, specSampleCov, Matrix.smul_apply, Matrix.mul_apply,
    Matrix.sub_apply, Matrix.transpose_apply, Matrix.of_apply, smul_eq_mul]
  rw [one_div, inv_mul_eq_div]

theorem sampleCov_symm {n N : ℕ} (M : Mat n N) :
    (sampleCov M)ᵀ = sampleCov M := by
  rw [sampleCov, Matrix.transpose_smul, Matrix.transpose_mul,
    Matrix.transpose_transpose]

theorem sampleCov_psd {n N : ℕ} (M : Mat n N) (hN : 2 ≤ N) (x : Vec n) :
    0 ≤ x ⬝ᵥ (sampleCov M).mulVec x := by
  rw [sampleCov, Matrix.smul_mulVec_assoc, Matrix.dotProduct_smul,
    ← Matrix.mulVec_mulVec, Matrix.dotProduct_mulVec,
    ← Matrix.mulVec_transpose]
  have h1 : (0:ℚ) ≤ 1 / ((N : ℚ) - 1) := by
    have h2 : (2:ℚ) ≤ (N:ℚ) := by exact_mod_cast hN
    exact div_nonneg zero_le_one (by linarith)
  refine mul_nonneg h1 ?_
  exact Finset.sum_nonneg fun i _ => mul_self_nonneg _

/-- C1: For every forecast ensemble with `N` members, the analysis step
computes the Kalman gain once per call as `K = B·Dhᵗ·(Dh·B·Dhᵗ + R)⁻¹`, with
the Jacobian linearized at the forecast ensemble mean, and each returned
analysis member `i` is `forecast member i + K·(w_i − ObsOp(member i))`,
where the innovation uses the nonlinear operator on member `i` and
`w_i = w + noise_i` is the per-member perturbed observation; the same `K` is
shared across all members. -/
theorem C1_analysis_update {n N m : ℕ} (ubi : Mat n N) (w : Vec m)
    (ObsOp : Vec n → Vec m) (JObsOp : Vec n → Mat m n)
    (R : Mat m m) (B : Mat n n) (noise : Fin N → Vec m)
    (hdet : (JObsOp (colMean ubi) * B * (JObsOp (colMean ubi))ᵀ + R).det ≠ 0)
    (hN : N ≠ 1) :
    ∃ uai P, EnKF ubi w ObsOp JObsOp R B noise = some (uai, P) ∧
      ∀ i r, uai r i = ubi r i +
        (B * (JObsOp (colMean ubi))ᵀ *
            (JObsOp (colMean ubi) * B * (JObsOp (colMean ubi))ᵀ + R)⁻¹).mulVec
          (fun t => (w t + noise i t) - ObsOp (fun q => ubi q i) t) r := by
  refine ⟨_, _, EnKF_eq_some ubi w ObsOp JObsOp R B noise hdet hN, ?_⟩
  intro i r
  rw [← kalmanGain_eq_inv]
  rfl

/-- Concrete witness inputs: state and observation dimension 1, two
members. -/
def ubiW : Mat 1 2 := !![1, 3]

def JW : Vec 1 → Mat 1 1 := fun _ => 1

def obsW : Vec 1 := fun _ => 2

theorem detW : ((JW (colMean ubiW)) * 1 * (JW (colMean ubiW))ᵀ + 1).det ≠ 0 := by
  simp [JW, Matrix.det_fin_one, Matrix.add_apply, Matrix.one_apply]

theorem C1_analysis_update_witness :
    ((JW (colMean ubiW) * 1 * (JW (colMean ubiW))ᵀ + 1).det ≠ 0) ∧
    (2 ≠ 1) ∧
    (∃ uai P,
      EnKF ubiW obsW id JW 1 1 (fun _ _ => 0) = some (uai, P) ∧
      ∀ i r, uai r i = ubiW r i +
        (1 * (JW (colMean ubiW))ᵀ *
            (JW (colMean ubiW) * 1 * (JW (colMean ubiW))ᵀ + 1)⁻¹).mulVec
          (fun t => (obsW t + 0) - id (fun q => ubiW q i) t) r) :=
  ⟨detW, by norm_num,
    C1_analysis_update ubiW obsW id JW 1 1 (fun _ _ => 0) detW (by norm_num)⟩

/-- C2: For every forecast ensemble with `N ≥ 2` members (and a nonsingular
innovation matrix), the covariance returned by the analysis step is exactly
the sample covariance of the returned analysis ensemble about its sample
mean with divisor `N−1`, and it is symmetric and positive semi-definite. -/
theorem C2_analysis_covariance {n N m : ℕ} (ubi : Mat n N) (w : Vec m)
    (ObsOp : Vec n → Vec m) (JObsOp : Vec n → Mat m n)
    (R : Mat m m) (B : Mat n n) (noise : Fin N → Vec m)
    (hdet : (JObsOp (colMean ubi) * B * (JObsOp (colMean ubi))ᵀ + R).det ≠ 0)
    (hN : 2 ≤ N) :
    ∃ uai P, EnKF ubi w ObsOp JObsOp R B noise = some (uai, P) ∧
      P = specSampleCov uai ∧ Pᵀ = P ∧
      ∀ x : Vec n, 0 ≤ x ⬝ᵥ P.mulVec x := by
  refine ⟨_, _, EnKF_eq_some ubi w ObsOp JObsOp R B noise hdet (by omega),
    (sampleCov_eq_spec _), sampleCov_symm _, fun x => sampleCov_psd _ hN x⟩

theorem C2_analysis_covariance_witness :
    ((JW (colMean ubiW) * 1 * (JW (colMean ubiW))ᵀ + 1).det ≠ 0) ∧
    (2 ≤ 2) ∧
    (∃ uai P,
      EnKF ubiW obsW id JW 1 1 (fun _ _ => 0) = some (uai, P) ∧
      P = specSampleCov uai ∧ Pᵀ = P ∧
      ∀ x : Vec 1, 0 ≤ x ⬝ᵥ P.mulVec x) :=
  ⟨detW, by norm_num,
    C2_analysis_covariance ubiW obsW id JW 1 1 (fun _ _ => 0) detW
      (by norm_num)⟩

/-- C4 counterexample: calling the analysis step on a single-member ensemble
returns no value at all (the Python call dies with `ZeroDivisionError` at
`1/(N-1)`), rather than returning the corrected member claimed. -/
theorem C4_counterexample :
    EnKF (1 : Mat 1 1) (fun _ => 0) id (fun _ => 1) 1 1 (fun _ _ => 0) =
      none := by
  simp [EnKF]

/-- C4 (amended): with zero observation noise and `N = 1`, the per-member
analysis correction reduces exactly to the deterministic linear correction
`member + K·(w − ObsOp member)` with the Kalman gain linearized at the
single member (which equals the ensemble mean); but the full analysis-step
call with `N = 1` fails at the `1/(N-1)` covariance divisor and returns no
value. -/
theorem C4_single_member {n m : ℕ} (ubi : Mat n 1) (w : Vec m)
    (ObsOp : Vec n → Vec m) (JObsOp : Vec n → Mat m n)
    (R : Mat m m) (B : Mat n n) :
    EnKF ubi w ObsOp JObsOp R B (fun _ _ => 0) = none ∧
    colMean ubi = (fun r => ubi r 0) ∧
    ∀ r, analysisEnsemble ubi w ObsOp
        (kalmanGain (JObsOp (colMean ubi)) B R) (fun _ _ => 0) r 0 =
      ubi r 0 +
        (B * (JObsOp (colMean ubi))ᵀ *
            (JObsOp (colMean ubi) * B * (JObsOp (colMean ubi))ᵀ + R)⁻¹).mulVec
          (fun t => w t - ObsOp (fun q => ubi q 0) t) r := by
  refine ⟨?_, ?_, ?_⟩
  · unfold EnKF
    split
    · dsimp only
      rw [ite_self]
    · rename_i h
      exact absurd rfl h
  · funext r
    simp [colMean]
  · intro r
    rw [kalmanGain_eq_inv]
    simp [analysisEnsemble]

/-- C9: the member loop of the analysis step never writes to the forecast
ensemble it was given: every entry of `ubi` (instantiated with the very gain
matrix `EnKF` computes) is unchanged after the loop. The outputs are built
up in the separate zero-initialized stores `wi` and `uai`. -/
theorem C9_input_unchanged {n N m : ℕ} (ubi : Mat n N) (w : Vec m)
    (ObsOp : Vec n → Vec m) (JObsOp : Vec n → Mat m n)
    (R : Mat m m) (B : Mat n n) (noise : Fin N → Vec m) :
    ∀ r i,
      (((List.finRange N).foldl
        (enkfLoopStep
          (B * (JObsOp (colMean ubi))ᵀ *
            npInv (JObsOp (colMean ubi) * B * (JObsOp (colMean ubi))ᵀ + R))
          w ObsOp noise)
        ⟨0, 0, ubi⟩ : LoopSt n N m).ubi) r i = ubi r i := by
  intro r i
  rw [enkfLoop_ubi]

/-! ### Experiment parameters and observation schedule (lines 48-81)

The Python literals `0.01`, `0.2`, `0.15`, `0.1` are IEEE doubles; every
value the script derives from them (`tm/dt = 1000.0`, `dt_m/dt = 20.0`,
`tm_m/dt = 200.0`, `tm_m/dt_m = 10.0`, and the linspace grid
`20.0, 40.0, ..., 200.0`) rounds to the exact mathematical result, so the
embedding can use exact rationals throughout. -/

/-- Python `int()`: truncation toward zero. -/
def pyInt (q : ℚ) : ℤ := if 0 ≤ q then ⌊q⌋ else -⌊-q⌋

def sigma : ℚ := 10

def beta : ℚ := 8 / 3

def rho : ℚ := 28

def dt : ℚ := 1 / 100

def tm : ℚ := 10

/-- `nt = int(tm/dt)` -/
def nt : ℕ := (pyInt (tm / dt)).toNat

def sig_m : ℚ := 3 / 20

/-- `R = sig_m**2*np.eye(3)` -/
def R : Mat 3 3 := sig_m ^ 2 • 1

def dt_m : ℚ := 1 / 5

def tm_m : ℚ := 2

/-- `nt_m = int(tm_m/dt_m)` -/
def nt_m : ℕ := (pyInt (tm_m / dt_m)).toNat

/-- numpy `linspace(start, stop, num)` with endpoint: entry `i` is
`start + i*(stop-start)/(num-1)`, and the final entry is `stop` exactly. -/
def linspaceVal (start stop : ℚ) (num : ℕ) (i : ℕ) : ℚ :=
  if i + 1 = num then stop else start + i * ((stop - start) / ((num : ℚ) - 1))

/-- `ind_m = (np.linspace(int(dt_m/dt), int(tm_m/dt), nt_m)).astype(int)` -/
def ind_m (j : ℕ) : ℕ :=
  (pyInt (linspaceVal ((pyInt (dt_m / dt) : ℤ) : ℚ)
    ((pyInt (tm_m / dt) : ℤ) : ℚ) nt_m j)).toNat

theorem nt_eq : nt = 1000 := by
  norm_num [nt, pyInt, tm, dt]
  rfl

theorem nt_m_eq : nt_m = 10 := by
  norm_num [nt_m, pyInt, tm_m, dt_m]
  rfl

theorem ind_m_eq : ∀ j, j < 10 → ind_m j = 20 * (j + 1) := by
  intro j hj
  interval_cases j <;>
    · norm_num [ind_m, linspaceVal, pyInt, tm_m, dt_m, dt, nt_m_eq]
      rfl

/-- C5: the observation schedule is a strictly increasing sequence of step
indices, evenly spaced every `int(dt_m/dt)` steps starting at that interval
and ending at `int(tm_m/dt)`; index `j` corresponds exactly to the
observation time `(j+1)·dt_m` (the grid values are whole numbers of steps,
so truncation and nearest-integer conversion coincide). The sequence is a
single top-level definition, evaluated from the parameters only. -/
theorem C5_schedule (j : ℕ) (hj : j < nt_m) :
    ind_m j = (j + 1) * (pyInt (dt_m / dt)).toNat ∧
    (∀ j', j' < j → ind_m j' < ind_m j) ∧
    ind_m (nt_m - 1) = (pyInt (tm_m / dt)).toNat ∧
    (ind_m j : ℚ) * dt = ((j : ℚ) + 1) * dt_m := by
  have h20 : (pyInt (dt_m / dt)).toNat = 20 := by
    norm_num [pyInt, dt_m, dt]
    rfl
  have h200 : (pyInt (tm_m / dt)).toNat = 200 := by
    norm_num [pyInt, tm_m, dt]
    rfl
  rw [nt_m_eq] at hj
  refine ⟨?_, ?_, ?_, ?_⟩
  · rw [h20, ind_m_eq j hj]
    ring
  · intro j' hj'
    rw [ind_m_eq j hj, ind_m_eq j' (lt_trans hj' hj)]
    omega
  · rw [nt_m_eq, h200, ind_m_eq 9 (by norm_num)]
  · rw [ind_m_eq j hj, dt, dt_m]
    push_cast
    ring

theorem C5_schedule_witness :
    3 < nt_m ∧
    (ind_m 3 = (3 + 1) * (pyInt (dt_m / dt)).toNat ∧
      (∀ j', j' < 3 → ind_m j' < ind_m 3) ∧
      ind_m (nt_m - 1) = (pyInt (tm_m / dt)).toNat ∧
      (ind_m 3 : ℚ) * dt = ((3 : ℚ) + 1) * dt_m) :=
  ⟨by rw [nt_m_eq]; norm_num, by
    have h := C5_schedule 3 (by rw [nt_m_eq]; norm_num)
    simpa using h⟩

/-! ### Truth trajectory and observation sampling (lines 60-92)

`RK4` and `Lorenz63` are imported by the script from the modules
`time_integrators` and `examples`, which are not part of the repository
sources; they are modelled from the spec. -/

/-- Modelled from the spec: `Lorenz63` (module `examples`) is not under
`src/`. Spec section 4.1: the stateless vector field of the 3-dimensional
chaotic Lorenz system with scalar parameters `sigma`, `beta`, `rho`
(the origin is an equilibrium for all parameters). -/
def Lorenz63 (sg bt rh : ℚ) (u : Vec 3) : Vec 3 :=
  ![sg * (u 1 - u 0), u 0 * (rh - u 2) - u 1, u 0 * u 1 - bt * u 2]

/-- Modelled from the spec: `RK4` (module `time_integrators`) is not under
`src/`. Spec section 4.2: the classical 4-stage weighted-average
`(k1,k2,k3,k4)` one-step update with step size `dt`. -/
def RK4 (f : Vec 3 → Vec 3) (u : Vec 3) (step : ℚ) : Vec 3 :=
  let k1 := f u
  let k2 := f (fun r => u r + step / 2 * k1 r)
  let k3 := f (fun r => u r + step / 2 * k2 r)
  let k4 := f (fun r => u r + step * k3 r)
  fun r => u r + step / 6 * (k1 r + 2 * k2 r + 2 * k3 r + k4 r)

/-- The observation operator (lines 61-63): identity. -/
def h (u : Vec 3) : Vec 3 := u

/-- Its Jacobian (lines 65-68): the identity matrix `np.eye(n)`. -/
def Dh (_ : Vec 3) : Mat 3 3 := 1

def u0True : Vec 3 := ![1, 0, 0]

/-- State of the truth/observation loop: the truth trajectory record, the
observation series record, the observation cursor `km`, and the cursor
`ctr` into the stream of raw standard-normal 3-vector draws made so far by
the seeded random source. -/
structure TruthSt where
  uTrue : ℕ → Vec 3
  w : ℕ → Vec 3
  km : ℕ
  ctr : ℕ

/-- One iteration `k` of the truth loop (lines 88-92): advance the truth by
`RK4` (no noise), and at a scheduled step sample the observation
`w[:,km] = h(uTrue[:,k+1]) + np.random.normal(0, sig_m, [3,])`, the draw
modelled as `sig_m • (next raw stream vector)`. -/
def truthStep (g : ℕ → Vec 3) (k : ℕ) (s : TruthSt) : TruthSt :=
  if s.km < nt_m ∧ k + 1 = ind_m s.km then
    { uTrue := Function.update s.uTrue (k + 1)
        (RK4 (Lorenz63 sigma beta rho) (s.uTrue k) dt)
      w := Function.update s.w s.km
        (fun r => h (RK4 (Lorenz63 sigma beta rho) (s.uTrue k) dt) r +
          sig_m * g s.ctr r)
      km := s.km + 1
      ctr := s.ctr + 1 }
  else
    { s with
      uTrue := Function.update s.uTrue (k + 1)
        (RK4 (Lorenz63 sigma beta rho) (s.uTrue k) dt) }

/-- `uTrue = np.zeros([3,nt+1]); uTrue[:,0] = u0True; w = np.zeros([3,nt_m])` -/
def truthInit : TruthSt :=
  ⟨Function.update (fun _ _ => 0) 0 u0True, fun _ _ => 0, 0, 0⟩

def truthLoop (g : ℕ → Vec 3) : ℕ → TruthSt
  | 0 => truthInit
  | k + 1 => truthStep g k (truthLoop g k)

/-- The observation-cursor progression of the truth loop, as a pure
function of the step count. -/
def kmAfter : ℕ → ℕ
  | 0 => 0
  | k + 1 =>
      if kmAfter k < nt_m ∧ k + 1 = ind_m (kmAfter k) then kmAfter k + 1
      else kmAfter k

theorem kmAfter_succ (k : ℕ) :
    kmAfter (k + 1) =
      if kmAfter k < nt_m ∧ k + 1 = ind_m (kmAfter k) then kmAfter k + 1
      else kmAfter k := rfl

theorem kmAfter_min : ∀ k, kmAfter k = min (k / 20) 10 := by
  intro k
  induction k with
  | zero => rfl
  | succ k ih =>
      rw [kmAfter_succ, ih, nt_m_eq]
      by_cases hm : min (k / 20) 10 < 10
      · simp only [ind_m_eq (min (k / 20) 10) hm]
        split_ifs with hc <;> omega
      · rw [if_neg fun hc => hm hc.1]
        omega

theorem kmAfter_nt : kmAfter nt = 10 := by
  rw [nt_eq, kmAfter_min]
  omega

theorem truthStep_uTrue (g : ℕ → Vec 3) (k : ℕ) (s : TruthSt) :
    (truthStep g k s).uTrue =
      Function.update s.uTrue (k + 1)
        (RK4 (Lorenz63 sigma beta rho) (s.uTrue k) dt) := by
  unfold truthStep
  split <;> rfl

theorem truthLoop_km_ctr (g : ℕ → Vec 3) :
    ∀ k, (truthLoop g k).km = kmAfter k ∧ (truthLoop g k).ctr = kmAfter k := by
  intro k
  induction k with
  | zero => exact ⟨rfl, rfl⟩
  | succ k ih =>
      obtain ⟨h1, h2⟩ := ih
      show (truthStep g k (truthLoop g k)).km = _ ∧
        (truthStep g k (truthLoop g k)).ctr = _
      rw [kmAfter_succ]
      unfold truthStep
      rw [h1, h2]
      split_ifs <;> exact ⟨rfl, rfl⟩

/-- The truth trajectory does not depend on the random stream at all. -/
theorem truthLoop_uTrue_indep (g g' : ℕ → Vec 3) :
    ∀ k, (truthLoop g k).uTrue = (truthLoop g' k).uTrue := by
  intro k
  induction k with
  | zero => rfl
  | succ k ih =>
      show (truthStep g k (truthLoop g k)).uTrue =
        (truthStep g' k (truthLoop g' k)).uTrue
      rw [truthStep_uTrue, truthStep_uTrue, ih]

theorem truthLoop_uTrue_stable (g : ℕ → Vec 3) (i k : ℕ) (hik : i ≠ k + 1) :
    (truthLoop g (k + 1)).uTrue i = (truthLoop g k).uTrue i := by
  show (truthStep g k (truthLoop g k)).uTrue i = _
  rw [truthStep_uTrue, Function.update_noteq hik]

theorem truthStep_w_pos (g : ℕ → Vec 3) (k : ℕ) (s : TruthSt)
    (hc : s.km < nt_m ∧ k + 1 = ind_m s.km) :
    (truthStep g k s).w = Function.update s.w s.km
      (fun r => h (RK4 (Lorenz63 sigma beta rho) (s.uTrue k) dt) r +
        sig_m * g s.ctr r) := by
  unfold truthStep
  rw [if_pos hc]

theorem truthStep_w_neg (g : ℕ → Vec 3) (k : ℕ) (s : TruthSt)
    (hc : ¬(s.km < nt_m ∧ k + 1 = ind_m s.km)) :
    (truthStep g k s).w = s.w := by
  unfold truthStep
  rw [if_neg hc]

/-- Content of the observation series: after `K` steps, observation `j` is
the truth at step `ind_m j` passed through `h` plus `sig_m` times raw
stream draw number `j`. -/
theorem truthLoop_w (g : ℕ → Vec 3) :
    ∀ K j, j < kmAfter K →
      ind_m j ≤ K ∧
      (truthLoop g K).w j =
        fun r => h ((truthLoop g K).uTrue (ind_m j)) r + sig_m * g j r := by
  intro K
  induction K with
  | zero =>
      intro j hj
      exact absurd hj (by simp [kmAfter])
  | succ K ih =>
      intro j hj
      obtain ⟨hkm, hctr⟩ := truthLoop_km_ctr g K
      have hstep : truthLoop g (K + 1) = truthStep g K (truthLoop g K) := rfl
      rw [kmAfter_succ] at hj
      by_cases hc : kmAfter K < nt_m ∧ K + 1 = ind_m (kmAfter K)
      · rw [if_pos hc] at hj
        have hc' : (truthLoop g K).km < nt_m ∧
            K + 1 = ind_m (truthLoop g K).km := by
          rw [hkm]; exact hc
        rcases Nat.lt_succ_iff_lt_or_eq.mp hj with hjlt | hjeq
        · obtain ⟨hle, hwj⟩ := ih j hjlt
          refine ⟨le_trans hle (Nat.le_succ K), ?_⟩
          rw [hstep, truthStep_w_pos g K _ hc',
            Function.update_noteq (by omega : j ≠ (truthLoop g K).km),
            truthStep_uTrue,
            Function.update_noteq (by omega : ind_m j ≠ K + 1), hwj]
        · subst hjeq
          refine ⟨le_of_eq hc.2.symm, ?_⟩
          rw [hstep, truthStep_w_pos g K _ hc', truthStep_uTrue, ← hc.2,
            hkm, Function.update_same, hctr, Function.update_same]
      · rw [if_neg hc] at hj
        have hc' : ¬((truthLoop g K).km < nt_m ∧
            K + 1 = ind_m (truthLoop g K).km) := by
          rw [hkm]; exact hc
        obtain ⟨hle, hwj⟩ := ih j hj
        refine ⟨le_trans hle (Nat.le_succ K), ?_⟩
        rw [hstep, truthStep_w_neg g K _ hc', truthStep_uTrue,
          Function.update_noteq (by omega : ind_m j ≠ K + 1), hwj]

/-! ### The assimilation driver (lines 97-138) -/

def u0b : Vec 3 := ![2, 3, 4]

def sig_b : ℚ := 1 / 10

/-- `B = sig_b**2*np.eye(3)`: the seed background covariance. -/
def B0 : Mat 3 3 := sig_b ^ 2 • 1

/-- `Q = 0.0*np.eye(3) = qscale^2 • 1`: the draw
`np.random.multivariate_normal(0, Q)` is modelled as
`qscale • (raw stream vector)`. -/
def qscale : ℚ := 0

/-- Ensemble size `N = 10`. -/
def N : ℕ := 10

/-- State of the module-level assimilation loop: all module arrays (the
read-only truth and observation series among them), the observation cursor
`km`, and the draw-stream cursor `ctr`. -/
structure DASt where
  uTrue : ℕ → Vec 3
  w : ℕ → Vec 3
  ub : ℕ → Vec 3
  ua : ℕ → Vec 3
  uai : Mat 3 N
  B : Mat 3 3
  km : ℕ
  ctr : ℕ

/-- The forecast ensemble of one step (lines 123-125): each member advanced
by `RK4` plus its own process-noise draw, in member order from stream
slot `c`. -/
def forecastEns (g : ℕ → Vec 3) (c : ℕ) (uai : Mat 3 N) : Mat 3 N :=
  Matrix.of fun r i =>
    RK4 (Lorenz63 sigma beta rho) (fun q => uai q i) dt r +
      qscale * g (c + i) r

/-- One iteration `k` of the assimilation loop (lines 118-138): advance the
diagnostic background; forecast every member; record the forecast mean at
`k+1` and overwrite `B` with the sample covariance of the fresh forecast;
at a scheduled observation step, additionally call `EnKF` with that fresh
covariance, replace the ensemble and `B` with its outputs, overwrite the
recorded mean with the analysis mean, and advance the observation cursor.
The per-member virtual-observation draws of `EnKF` follow this step's `N`
process-noise draws in the stream. -/
def daStep (g : ℕ → Vec 3) (k : ℕ) (s : DASt) : Option DASt :=
  if s.km < nt_m ∧ k + 1 = ind_m s.km then
    (EnKF (forecastEns g s.ctr s.uai) (s.w s.km) h Dh R
        (sampleCov (forecastEns g s.ctr s.uai))
        (fun i t => sig_m * g (s.ctr + N + i) t)).map fun p =>
      { s with
        ub := Function.update s.ub (k + 1)
          (RK4 (Lorenz63 sigma beta rho) (s.ub k) dt)
        uai := p.1
        B := p.2
        ua := Function.update s.ua (k + 1) (colMean p.1)
        km := s.km + 1
        ctr := s.ctr + N + N }
  else
    some
      { s with
        ub := Function.update s.ub (k + 1)
          (RK4 (Lorenz63 sigma beta rho) (s.ub k) dt)
        uai := forecastEns g s.ctr s.uai
        B := sampleCov (forecastEns g s.ctr s.uai)
        ua := Function.update s.ua (k + 1)
          (colMean (forecastEns g s.ctr s.uai))
        ctr := s.ctr + N }

/-- Lines 97-116: `ub[:,0] = ua[:,0] = u0b`; the initial ensemble is `u0b`
plus per-member background perturbations `multivariate_normal(0, B)`
(`= sig_b • raw draw`), read from the stream right after the truth pass's
observation draws. `T` is the state left by the truth pass. -/
def daInit (g : ℕ → Vec 3) (T : TruthSt) : DASt :=
  { uTrue := T.uTrue
    w := T.w
    ub := Function.update (fun _ _ => 0) 0 u0b
    ua := Function.update (fun _ _ => 0) 0 u0b
    uai := Matrix.of fun r i => u0b r + sig_b * g (T.ctr + i) r
    B := B0
    km := 0
    ctr := T.ctr + N }

theorem daInit_uTrue (g : ℕ → Vec 3) (T : TruthSt) :
    (daInit g T).uTrue = T.uTrue := rfl

theorem daInit_w (g : ℕ → Vec 3) (T : TruthSt) :
    (daInit g T).w = T.w := rfl

theorem daInit_uai (g : ℕ → Vec 3) (T : TruthSt) (r : Fin 3) (i : Fin N) :
    (daInit g T).uai r i = u0b r + sig_b * g (T.ctr + i) r := rfl

theorem daInit_ctr (g : ℕ → Vec 3) (T : TruthSt) :
    (daInit g T).ctr = T.ctr + N := rfl

theorem daInit_ua0 (g : ℕ → Vec 3) (T : TruthSt) :
    (daInit g T).ua 0 = u0b := by
  show Function.update (fun _ _ => (0:ℚ)) 0 u0b 0 = u0b
  rw [Function.update_same]

def daIter (g : ℕ → Vec 3) (s : DASt) : ℕ → Option DASt
  | 0 => some s
  | k + 1 => (daIter g s k).bind (daStep g k)

/-- The whole program: truth pass, then `nt` assimilation iterations. -/
def runDA (g : ℕ → Vec 3) : Option DASt :=
  daIter g (daInit g (truthLoop g nt)) nt

theorem daStep_frame (g : ℕ → Vec 3) (k : ℕ) (s t : DASt)
    (hst : daStep g k s = some t) :
    t.uTrue = s.uTrue ∧ t.w = s.w ∧ t.ua 0 = s.ua 0 := by
  unfold daStep at hst
  split at hst
  · rcases Option.map_eq_some'.mp hst with ⟨p, _, hp⟩
    subst hp
    refine ⟨rfl, rfl, ?_⟩
    show Function.update s.ua (k + 1) (colMean p.1) 0 = s.ua 0
    exact Function.update_noteq (by omega) _ _
  · cases hst
    refine ⟨rfl, rfl, ?_⟩
    show Function.update s.ua (k + 1)
      (colMean (forecastEns g s.ctr s.uai)) 0 = s.ua 0
    exact Function.update_noteq (by omega) _ _

/-- Iterating the loop from any start state never changes the truth
record, the observation record, or entry `0` of the recorded mean. -/
theorem daIter_keeps (g : ℕ → Vec 3) (s0 : DASt) :
    ∀ j st, daIter g s0 j = some st →
      st.uTrue = s0.uTrue ∧ st.w = s0.w ∧ st.ua 0 = s0.ua 0 := by
  intro j
  induction j with
  | zero =>
      intro st hst
      cases hst
      exact ⟨rfl, rfl, rfl⟩
  | succ j ih =>
      intro st hst
      rcases Option.bind_eq_some.mp hst with ⟨s', hs', hstep⟩
      obtain ⟨e1, e2, e3⟩ := ih s' hs'
      obtain ⟨f1, f2, f3⟩ := daStep_frame g j s' st hstep
      exact ⟨f1.trans e1, f2.trans e2, f3.trans e3⟩

/-- C3: in every iteration `k` the driver first forecasts every member
through the integrator plus its process-noise draw, records the forecast
ensemble mean at `k+1`, and unconditionally overwrites `B` with the sample
covariance (divisor `N-1`) of the fresh forecast; then, exactly when `k+1`
is the next scheduled observation index, it calls the analysis step with
this fresh `B`, replaces the ensemble and `B` with the analysis outputs,
overwrites the recorded mean with the analysis mean, and advances the
observation cursor. -/
theorem C3_driver_step (g : ℕ → Vec 3) (k : ℕ) (s : DASt) :
    (¬(s.km < nt_m ∧ k + 1 = ind_m s.km) →
      daStep g k s = some
        { s with
          ub := Function.update s.ub (k + 1)
            (RK4 (Lorenz63 sigma beta rho) (s.ub k) dt)
          uai := forecastEns g s.ctr s.uai
          B := sampleCov (forecastEns g s.ctr s.uai)
          ua := Function.update s.ua (k + 1)
            (colMean (forecastEns g s.ctr s.uai))
          ctr := s.ctr + N }) ∧
    ((s.km < nt_m ∧ k + 1 = ind_m s.km) →
      daStep g k s =
        (EnKF (forecastEns g s.ctr s.uai) (s.w s.km) h Dh R
            (sampleCov (forecastEns g s.ctr s.uai))
            (fun i t => sig_m * g (s.ctr + N + i) t)).map fun p =>
          { s with
            ub := Function.update s.ub (k + 1)
              (RK4 (Lorenz63 sigma beta rho) (s.ub k) dt)
            uai := p.1
            B := p.2
            ua := Function.update s.ua (k + 1) (colMean p.1)
            km := s.km + 1
            ctr := s.ctr + N + N }) ∧
    (∀ r (i : Fin N), forecastEns g s.ctr s.uai r i =
      RK4 (Lorenz63 sigma beta rho) (fun q => s.uai q i) dt r +
        qscale * g (s.ctr + i) r) :=
  ⟨fun hc => by unfold daStep; rw [if_neg hc],
   fun hc => by unfold daStep; rw [if_pos hc],
   fun r i => rfl⟩

theorem truthLoop_uTrue0 (g : ℕ → Vec 3) :
    ∀ K, (truthLoop g K).uTrue 0 = u0True := by
  intro K
  induction K with
  | zero =>
      show Function.update (fun _ _ => (0:ℚ)) 0 u0True 0 = u0True
      rw [Function.update_same]
  | succ K ih => rw [truthLoop_uTrue_stable g 0 K (by omega), ih]

theorem truthLoop_uTrue_mono (g : ℕ → Vec 3) (i K K' : ℕ) (h1 : i ≤ K)
    (h2 : K ≤ K') :
    (truthLoop g K').uTrue i = (truthLoop g K).uTrue i := by
  induction K', h2 using Nat.le_induction with
  | base => rfl
  | succ m hm ih =>
      rw [truthLoop_uTrue_stable g i m (by omega : i ≠ m + 1), ih]

theorem truthLoop_uTrue_rec (g : ℕ → Vec 3) (k K : ℕ) (hk : k < K) :
    (truthLoop g K).uTrue (k + 1) =
      RK4 (Lorenz63 sigma beta rho) ((truthLoop g K).uTrue k) dt := by
  have e1 : (truthLoop g K).uTrue (k + 1) = (truthLoop g (k + 1)).uTrue (k + 1) :=
    truthLoop_uTrue_mono g (k + 1) (k + 1) K le_rfl hk
  have e2 : (truthLoop g (k + 1)).uTrue (k + 1) =
      RK4 (Lorenz63 sigma beta rho) ((truthLoop g k).uTrue k) dt := by
    show (truthStep g k (truthLoop g k)).uTrue (k + 1) = _
    rw [truthStep_uTrue, Function.update_same]
  have e3 : (truthLoop g K).uTrue k = (truthLoop g k).uTrue k :=
    truthLoop_uTrue_mono g k k K le_rfl (le_of_lt hk)
  rw [e1, e2, e3]

/-- C6: the truth trajectory is computed once, forward, by the
deterministic integrator alone (no noise enters any state); observation
noise, of standard deviation `sig_m` with `sig_m² = R r r`, is added only
to `h` of the true state at scheduled observation steps to form the fixed
observation series; and no iteration of the assimilation loop changes the
truth or observation records it carries. -/
theorem C6_truth_immutable (g : ℕ → Vec 3) :
    (truthLoop g nt).uTrue 0 = u0True ∧
    (∀ k, k < nt →
      (truthLoop g nt).uTrue (k + 1) =
        RK4 (Lorenz63 sigma beta rho) ((truthLoop g nt).uTrue k) dt) ∧
    (∀ j, j < (truthLoop g nt).km →
      (truthLoop g nt).w j =
        fun r => h ((truthLoop g nt).uTrue (ind_m j)) r + sig_m * g j r) ∧
    (∀ r, R r r = sig_m * sig_m) ∧
    (∀ j st, daIter g (daInit g (truthLoop g nt)) j = some st →
      st.uTrue = (truthLoop g nt).uTrue ∧ st.w = (truthLoop g nt).w) := by
  refine ⟨truthLoop_uTrue0 g nt, fun k hk => truthLoop_uTrue_rec g k nt hk,
    ?_, ?_, ?_⟩
  · intro j hj
    rw [(truthLoop_km_ctr g nt).1] at hj
    exact (truthLoop_w g nt j hj).2
  · intro r
    simp only [R, Matrix.smul_apply, Matrix.one_apply_eq, smul_eq_mul]
    ring
  · intro j st hst
    obtain ⟨e1, e2, _⟩ := daIter_keeps g (daInit g (truthLoop g nt)) j st hst
    exact ⟨e1.trans (daInit_uTrue g (truthLoop g nt)),
      e2.trans (daInit_w g (truthLoop g nt))⟩

/-- The all-zeros raw stream. -/
def g0 : ℕ → Vec 3 := fun _ _ => 0

/-- The same stream with only the very first drawn vector changed. -/
def g1 : ℕ → Vec 3 := Function.update g0 0 (fun _ => 1)

/-- C7 counterexample: changing only the first raw draw of the seeded
stream changes the observation series but leaves the initial ensemble
untouched — so the initial ensemble perturbation is not drawn first; the
truth pass's observation draws precede it. -/
theorem C7_counterexample :
    (daInit g1 (truthLoop g1 nt)).uai = (daInit g0 (truthLoop g0 nt)).uai ∧
    (truthLoop g1 nt).w 0 ≠ (truthLoop g0 nt).w 0 := by
  have hc0 : (truthLoop g0 nt).ctr = 10 :=
    (truthLoop_km_ctr g0 nt).2.trans kmAfter_nt
  have hc1 : (truthLoop g1 nt).ctr = 10 :=
    (truthLoop_km_ctr g1 nt).2.trans kmAfter_nt
  constructor
  · ext r i
    rw [daInit_uai, daInit_uai, hc0, hc1]
    simp only [g1]
    rw [Function.update_noteq (by omega : (10 + (i : ℕ)) ≠ 0)]
  · intro heq
    have h1 := (truthLoop_w g1 nt 0 (by rw [kmAfter_nt]; omega)).2
    have h0 := (truthLoop_w g0 nt 0 (by rw [kmAfter_nt]; omega)).2
    rw [h1, h0, truthLoop_uTrue_indep g1 g0 nt] at heq
    have hval := congrFun heq 0
    simp only [g1, g0, Function.update_same] at hval
    rw [mul_one, mul_zero, add_zero] at hval
    have hsm : sig_m = 0 := by linarith
    norm_num [sig_m] at hsm

/-- C7 (amended): draws are consumed in this fixed order: the truth pass
takes one observation-noise draw per scheduled observation (observation `j`
uses raw draw `j`); the initial ensemble perturbations take the next `N`
draws in member order; and each loop iteration takes `N` process-noise
draws in member order, followed immediately by that step's `N` per-member
virtual-observation draws when an analysis occurs. All outputs are
functions of the raw stream alone. -/
theorem C7_draw_order (g : ℕ → Vec 3) :
    (truthLoop g nt).ctr = (truthLoop g nt).km ∧
    (∀ j, j < (truthLoop g nt).km →
      (truthLoop g nt).w j =
        fun r => h ((truthLoop g nt).uTrue (ind_m j)) r + sig_m * g j r) ∧
    (∀ r (i : Fin N), (daInit g (truthLoop g nt)).uai r i =
      u0b r + sig_b * g ((truthLoop g nt).ctr + i) r) ∧
    ((daInit g (truthLoop g nt)).ctr = (truthLoop g nt).ctr + N) ∧
    (∀ k s, (¬(s.km < nt_m ∧ k + 1 = ind_m s.km) →
        (daStep g k s).map (fun t => t.ctr) = some (s.ctr + N)) ∧
      ((s.km < nt_m ∧ k + 1 = ind_m s.km) →
        (daStep g k s).map (fun t => t.ctr) =
          (EnKF (forecastEns g s.ctr s.uai) (s.w s.km) h Dh R
              (sampleCov (forecastEns g s.ctr s.uai))
              (fun i t => sig_m * g (s.ctr + N + i) t)).map
            (fun _ => s.ctr + N + N))) := by
  refine ⟨(truthLoop_km_ctr g nt).2.trans ((truthLoop_km_ctr g nt).1).symm,
    ?_, daInit_uai g (truthLoop g nt), daInit_ctr g (truthLoop g nt), ?_⟩
  · intro j hj
    rw [(truthLoop_km_ctr g nt).1] at hj
    exact (truthLoop_w g nt j hj).2
  · intro k s
    constructor
    · intro hc
      unfold daStep
      rw [if_neg hc]
      rfl
    · intro hc
      unfold daStep
      rw [if_pos hc]
      cases hE : EnKF (forecastEns g s.ctr s.uai) (s.w s.km) h Dh R
          (sampleCov (forecastEns g s.ctr s.uai))
          (fun i t => sig_m * g (s.ctr + N + i) t) <;> rfl

/-- Agreement of two driver states on everything except the diagnostic
background trajectory `ub`. -/
def agreeNoBg (s t : DASt) : Prop :=
  s.uTrue = t.uTrue ∧ s.w = t.w ∧ s.ua = t.ua ∧ s.uai = t.uai ∧
    s.B = t.B ∧ s.km = t.km ∧ s.ctr = t.ctr

theorem daStep_noBg (g : ℕ → Vec 3) (k : ℕ) (s t : DASt)
    (ha : agreeNoBg s t) :
    (daStep g k s = none ∧ daStep g k t = none) ∨
    ∃ s' t', daStep g k s = some s' ∧ daStep g k t = some t' ∧
      agreeNoBg s' t' := by
  obtain ⟨e1, e2, e3, e4, e5, e6, e7⟩ := ha
  unfold daStep
  simp only [e1, e2, e3, e4, e5, e6, e7]
  by_cases hc : t.km < nt_m ∧ k + 1 = ind_m t.km
  · rw [if_pos hc, if_pos hc]
    cases hE : EnKF (forecastEns g t.ctr t.uai) (t.w t.km) h Dh R
        (sampleCov (forecastEns g t.ctr t.uai))
        (fun i u => sig_m * g (t.ctr + N + i) u) with
    | none => exact Or.inl ⟨rfl, rfl⟩
    | some p =>
        exact Or.inr ⟨_, _, rfl, rfl, rfl, rfl, rfl, rfl, rfl, rfl, rfl⟩
  · rw [if_neg hc, if_neg hc]
    exact Or.inr ⟨_, _, rfl, rfl, rfl, rfl, rfl, rfl, rfl, rfl, rfl⟩

/-- C8: the diagnostic background trajectory never feeds back: two runs of
the assimilation loop from states that agree on everything except the
stored background trajectory stay in agreement on the ensemble, `B`, the
recorded mean trajectory, the cursors — and fail identically. -/
theorem C8_background_no_feedback (g : ℕ → Vec 3) (j : ℕ) (s t : DASt)
    (ha : agreeNoBg s t) :
    (daIter g s j = none ∧ daIter g t j = none) ∨
    ∃ s' t', daIter g s j = some s' ∧ daIter g t j = some t' ∧
      agreeNoBg s' t' := by
  induction j with
  | zero => exact Or.inr ⟨s, t, rfl, rfl, ha⟩
  | succ j ih =>
      rcases ih with ⟨hn1, hn2⟩ | ⟨s', t', hs', ht', ha'⟩
      · left
        refine ⟨?_, ?_⟩
        · show (daIter g s j).bind (daStep g j) = none
          rw [hn1]
          rfl
        · show (daIter g t j).bind (daStep g j) = none
          rw [hn2]
          rfl
      · rcases daStep_noBg g j s' t' ha' with ⟨hm1, hm2⟩ |
          ⟨s'', t'', hs'', ht'', ha''⟩
        · left
          refine ⟨?_, ?_⟩
          · show (daIter g s j).bind (daStep g j) = none
            rw [hs']
            exact hm1
          · show (daIter g t j).bind (daStep g j) = none
            rw [ht']
            exact hm2
        · right
          refine ⟨s'', t'', ?_, ?_, ha''⟩
          · show (daIter g s j).bind (daStep g j) = some s''
            rw [hs']
            exact hs''
          · show (daIter g t j).bind (daStep g j) = some t''
            rw [ht']
            exact ht''

theorem C8_background_no_feedback_witness :
    agreeNoBg (daInit g0 (truthLoop g0 nt)) (daInit g0 (truthLoop g0 nt)) ∧
    ((daIter g0 (daInit g0 (truthLoop g0 nt)) 2 = none ∧
        daIter g0 (daInit g0 (truthLoop g0 nt)) 2 = none) ∨
      ∃ s' t', daIter g0 (daInit g0 (truthLoop g0 nt)) 2 = some s' ∧
        daIter g0 (daInit g0 (truthLoop g0 nt)) 2 = some t' ∧
        agreeNoBg s' t') :=
  ⟨⟨rfl, rfl, rfl, rfl, rfl, rfl, rfl⟩,
    C8_background_no_feedback g0 2 (daInit g0 (truthLoop g0 nt))
      (daInit g0 (truthLoop g0 nt)) ⟨rfl, rfl, rfl, rfl, rfl, rfl, rfl⟩⟩

/-- The mean of the initial perturbed ensemble is `u0b` plus the average
of the `N` sampled background perturbations. -/
theorem daInit_mean (g : ℕ → Vec 3) (T : TruthSt) :
    colMean (daInit g T).uai =
      fun r => u0b r + (∑ i : Fin N, sig_b * g (T.ctr + i) r) / N := by
  funext r
  show (∑ i : Fin N, (u0b r + sig_b * g (T.ctr + i) r)) / (N : ℚ) = _
  rw [Finset.sum_add_distrib, Finset.sum_const, Finset.card_univ,
    Fintype.card_fin, add_div, nsmul_eq_mul, mul_div_cancel_left₀]
  norm_num [N]

/-- C10: the recorded analysis-mean trajectory starts at exactly the
background initial condition `u0b` — it is set before the ensemble is
drawn, and the loop never overwrites index `0` — while the mean of the
initial perturbed ensemble is `u0b` plus the average of the `N` sampled
background perturbations. -/
theorem C10_initial_record (g : ℕ → Vec 3) :
    (daInit g (truthLoop g nt)).ua 0 = u0b ∧
    (∀ j st, daIter g (daInit g (truthLoop g nt)) j = some st →
      st.ua 0 = u0b) ∧
    colMean (daInit g (truthLoop g nt)).uai =
      fun r => u0b r +
        (∑ i : Fin N, sig_b * g ((truthLoop g nt).ctr + i) r) / N := by
  refine ⟨daInit_ua0 g (truthLoop g nt), ?_, daInit_mean g (truthLoop g nt)⟩
  intro j st hst
  exact ((daIter_keeps g (daInit g (truthLoop g nt)) j st hst).2.2).trans
    (daInit_ua0 g (truthLoop g nt))

end L63
